import Mathlib

/-!
Shallow embedding of the `strength_reduce` crate (src/lib.rs and
src/long_multiplication.rs): fixed-width unsigned division-by-multiplication
engines for widths 8/16/32/64/128.  Machine integers of width `w` are
modelled as `Nat`, with an explicit `% 2^w` wherever the source truncates
(`as` casts, `wrapping_mul`, `wrapping_add`); checked arithmetic is modelled
by the exact `Nat` operation.  `long_division.rs` is referenced by lib.rs but
its source is not present; its two functions are modelled from the spec.
-/

/-- Models `uN::is_power_of_two` from the Rust standard library: `true`
iff the input equals `2^k` for some `k`.  Computed by repeated halving;
the first argument is fuel, always called with fuel = the input itself,
which is enough since the recursion halves the value each step. -/
def isPow2Aux : Nat → Nat → Bool
  | 0, _ => false
  | fuel + 1, n =>
    if n = 1 then true
    else if n % 2 = 1 ∨ n = 0 then false
    else isPow2Aux fuel (n / 2)

/-- Models `uN::is_power_of_two`. -/
def isPowerOfTwo (n : Nat) : Bool := isPow2Aux n n

/-- Models `uN::trailing_zeros` for nonzero inputs (every use in the source
applies it to the nonzero divisor): number of trailing zero bits.  The first
argument is fuel, always called with fuel = the input itself. -/
def tzAux : Nat → Nat → Nat
  | 0, _ => 0
  | fuel + 1, n =>
    if n % 2 = 1 ∨ n = 0 then 0
    else tzAux fuel (n / 2) + 1

/-- Models `uN::trailing_zeros` (for the nonzero inputs it is used on). -/
def trailingZeros (n : Nat) : Nat := tzAux n n

/-! ### long_multiplication.rs -/

/-- The first `while` loop of `multiply_256_by_64_helper` in
src/long_multiplication.rs: starting at index `i` with `remaining`
iterations left (the Rust loop runs while `i < a.len()`, i.e. exactly
`4 - ibeg` times), add `a[i] * b` plus carries into the product limbs.
Returns the updated limbs and the outgoing carry. -/
def mulLoop (a : List Nat) (b : Nat) :
    Nat → Nat → Nat → List Nat → List Nat × Nat
  | 0, _, carry, product => (product, carry)
  | remaining + 1, i, carry, product =>
    let c := carry + product.getD i 0 + a.getD i 0 * b
    mulLoop a b remaining (i + 1) (c >>> 64) (product.set i (c % 2 ^ 64))

/-- The second `while` loop of `multiply_256_by_64_helper`: propagate the
carry while it is nonzero and the index is below `product.len()` (= 6); the
Rust loop starts at `ibeg + a.len()`, so it has `6 - (ibeg + 4)` iterations
available, passed here as `remaining`. -/
def carryLoop : Nat → Nat → Nat → List Nat → List Nat
  | 0, _, _, product => product
  | remaining + 1, i, carry, product =>
    if carry = 0 then product
    else
      let c := carry + product.getD i 0
      carryLoop remaining (i + 1) (c >>> 64) (product.set i (c % 2 ^ 64))

/-- `multiply_256_by_64_helper` from src/long_multiplication.rs, limbs as a
6-element list of 64-bit values. -/
def multiply_256_by_64_helper (product : List Nat) (ibeg : Nat)
    (a : List Nat) (b : Nat) : List Nat :=
  if b ≠ 0 then
    let s := mulLoop a b (4 - ibeg) ibeg 0 product
    carryLoop (6 - (ibeg + 4)) (ibeg + 4) s.2 s.1
  else product

/-- `multiply_256_by_128_upperbits` from src/long_multiplication.rs:
break `a` (256 bits, given as two 128-bit halves) and `b` (128 bits) into
64-bit little-endian chunks, long-multiply into a 6-limb product, and return
limbs 4 and 5 reassembled. -/
def multiply_256_by_128_upperbits (a_hi a_lo b : Nat) : Nat :=
  let a_chunks : List Nat :=
    [a_lo % 2 ^ 64, (a_lo >>> 64) % 2 ^ 64, a_hi % 2 ^ 64, (a_hi >>> 64) % 2 ^ 64]
  let b_chunks : List Nat := [b % 2 ^ 64, (b >>> 64) % 2 ^ 64]
  let product := multiply_256_by_64_helper (List.replicate 6 0) 0 a_chunks (b_chunks.getD 0 0)
  let product := multiply_256_by_64_helper product 1 a_chunks (b_chunks.getD 1 0)
  ((product.getD 5 0) <<< 64) ||| (product.getD 4 0)

/-! ### long_division.rs (file absent from src/, modelled from the spec) -/

/-- Modelled from the spec: `long_division::divide_128_max_by_64` is declared
in src/lib.rs but long_division.rs is not present.  Spec §4.1: for a nonzero
64-bit divisor `d`, the output is the quotient of `(2^128 - 1) / d` as a
single 128-bit value. -/
def divide_128_max_by_64 (d : Nat) : Nat := (2 ^ 128 - 1) / d

/-- Modelled from the spec: `long_division::divide_256_max_by_128` is
declared in src/lib.rs but long_division.rs is not present.  Spec §4.1: for
a nonzero 128-bit divisor `d`, the output is the quotient of
`(2^256 - 1) / d` as a `(hi, lo)` pair of 128-bit halves. -/
def divide_256_max_by_128 (d : Nat) : Nat × Nat :=
  (((2 ^ 256 - 1) / d) >>> 128, ((2 ^ 256 - 1) / d) % 2 ^ 128)

/-! ### StrengthReducedU8 (src/lib.rs lines 63-148) -/

structure StrengthReducedU8 where
  multiplier : Nat
  divisor : Nat

namespace StrengthReducedU8

/-- `StrengthReducedU8::new`; the `NonZeroU8` argument is modelled as a `Nat`
(nonzeroness carried as a hypothesis in the theorems). -/
def new (divisor : Nat) : StrengthReducedU8 :=
  { divisor := divisor
    multiplier :=
      if isPowerOfTwo divisor then 0
      else (2 ^ 16 - 1) / divisor + 1 }

def get (self : StrengthReducedU8) : Nat := self.divisor

/-- `StrengthReducedU8::divide`; `as u8` casts are the `% 2^8`. -/
def divide (self : StrengthReducedU8) (num : Nat) : Nat :=
  if self.multiplier = 0 then
    (num >>> trailingZeros self.get) % 2 ^ 8
  else
    let numerator := num
    let multiplied_hi := numerator * (self.multiplier >>> 8)
    let multiplied_lo := (numerator * (self.multiplier % 2 ^ 8)) >>> 8
    ((multiplied_hi + multiplied_lo) >>> 8) % 2 ^ 8

/-- `StrengthReducedU8::remainder`; `wrapping_mul` at u16 is the `% 2^16`,
the final `as u8` is the `% 2^8`. -/
def remainder (self : StrengthReducedU8) (num : Nat) : Nat :=
  if self.multiplier = 0 then
    num &&& (self.get - 1)
  else
    let product := (self.multiplier * num) % 2 ^ 16
    let divisor := self.get
    let shifted := (product * divisor) >>> 16
    shifted % 2 ^ 8

/-- `StrengthReducedU8::div_rem`. -/
def div_rem (numerator : Nat) (denom : StrengthReducedU8) : Nat × Nat :=
  (denom.divide numerator, denom.remainder numerator)

end StrengthReducedU8

/-- `impl Div<StrengthReducedU8> for u8`. -/
instance : HDiv Nat StrengthReducedU8 Nat :=
  ⟨fun n rhs => rhs.divide n⟩

/-- `impl Rem<StrengthReducedU8> for u8`. -/
instance : HMod Nat StrengthReducedU8 Nat :=
  ⟨fun n rhs => rhs.remainder n⟩

/-! ### StrengthReducedU16 (macro strength_reduced_u16, src/lib.rs lines 151-247) -/

structure StrengthReducedU16 where
  multiplier : Nat
  divisor : Nat

namespace StrengthReducedU16

/-- `StrengthReducedU16::new`. -/
def new (divisor : Nat) : StrengthReducedU16 :=
  { divisor := divisor
    multiplier :=
      if isPowerOfTwo divisor then 0
      else (2 ^ 32 - 1) / divisor + 1 }

def get (self : StrengthReducedU16) : Nat := self.divisor

/-- `StrengthReducedU16::divide`; the final `as u16` is the `% 2^16`. -/
def divide (self : StrengthReducedU16) (num : Nat) : Nat :=
  if self.multiplier = 0 then
    num >>> trailingZeros self.get
  else
    let numerator := num
    let multiplied_hi := numerator * (self.multiplier >>> 16)
    let multiplied_lo := (numerator * (self.multiplier % 2 ^ 16)) >>> 16
    ((multiplied_hi + multiplied_lo) >>> 16) % 2 ^ 16

/-- `StrengthReducedU16::remainder`. -/
def remainder (self : StrengthReducedU16) (num : Nat) : Nat :=
  if self.multiplier = 0 then
    num &&& (self.get - 1)
  else
    let quotient := self.divide num
    num - quotient * self.get

/-- `StrengthReducedU16::div_rem`. -/
def div_rem (numerator : Nat) (denom : StrengthReducedU16) : Nat × Nat :=
  let quotient := denom.divide numerator
  let rem := numerator - quotient * denom.get
  (quotient, rem)

end StrengthReducedU16

/-- `impl Div<StrengthReducedU16> for u16`. -/
instance : HDiv Nat StrengthReducedU16 Nat :=
  ⟨fun n rhs => rhs.divide n⟩

/-- `impl Rem<StrengthReducedU16> for u16`. -/
instance : HMod Nat StrengthReducedU16 Nat :=
  ⟨fun n rhs => rhs.remainder n⟩

/-! ### StrengthReducedU32 (macro strength_reduced_u32, src/lib.rs lines 250-357) -/

structure StrengthReducedU32 where
  multiplier : Nat
  divisor : Nat

namespace StrengthReducedU32

/-- `StrengthReducedU32::new`. -/
def new (divisor : Nat) : StrengthReducedU32 :=
  { divisor := divisor
    multiplier :=
      if isPowerOfTwo divisor then 0
      else (2 ^ 64 - 1) / divisor + 1 }

def get (self : StrengthReducedU32) : Nat := self.divisor

/-- `StrengthReducedU32::div_rem`. -/
def div_rem (numerator : Nat) (denom : StrengthReducedU32) : Nat × Nat :=
  if denom.multiplier = 0 then
    (numerator >>> trailingZeros denom.get, numerator &&& (denom.get - 1))
  else
    let numerator64 := numerator
    let multiplied_hi := numerator64 * (denom.multiplier >>> 32)
    let multiplied_lo := (numerator64 * (denom.multiplier % 2 ^ 32)) >>> 32
    let quotient := ((multiplied_hi + multiplied_lo) >>> 32) % 2 ^ 32
    let rem := numerator - quotient * denom.get
    (quotient, rem)

/-- `StrengthReducedU32::divide`; the final `as u32` is the `% 2^32`. -/
def divide (self : StrengthReducedU32) (num : Nat) : Nat :=
  if self.multiplier = 0 then
    num >>> trailingZeros self.get
  else
    let numerator := num
    let multiplied_hi := numerator * (self.multiplier >>> 32)
    let multiplied_lo := (numerator * (self.multiplier % 2 ^ 32)) >>> 32
    ((multiplied_hi + multiplied_lo) >>> 32) % 2 ^ 32

/-- `StrengthReducedU32::remainder`; `wrapping_mul` at u64 is the `% 2^64`,
the final `as u32` is the `% 2^32`. -/
def remainder (self : StrengthReducedU32) (num : Nat) : Nat :=
  if self.multiplier = 0 then
    num &&& (self.get - 1)
  else
    let product := (self.multiplier * num) % 2 ^ 64
    let divisor := self.get
    let shifted := (product * divisor) >>> 64
    shifted % 2 ^ 32

end StrengthReducedU32

/-- `impl Div<StrengthReducedU32> for u32`. -/
instance : HDiv Nat StrengthReducedU32 Nat :=
  ⟨fun n rhs => rhs.divide n⟩

/-- `impl Rem<StrengthReducedU32> for u32`. -/
instance : HMod Nat StrengthReducedU32 Nat :=
  ⟨fun n rhs => rhs.remainder n⟩

/-! ### StrengthReducedU64 (macro strength_reduced_u64, src/lib.rs lines 359-463) -/

structure StrengthReducedU64 where
  multiplier : Nat
  divisor : Nat

namespace StrengthReducedU64

/-- `StrengthReducedU64::new`; the non-power-of-two branch calls the
spec-modelled `divide_128_max_by_64`. -/
def new (divisor : Nat) : StrengthReducedU64 :=
  { divisor := divisor
    multiplier :=
      if isPowerOfTwo divisor then 0
      else divide_128_max_by_64 divisor + 1 }

def get (self : StrengthReducedU64) : Nat := self.divisor

/-- `StrengthReducedU64::div_rem`. -/
def div_rem (numerator : Nat) (denom : StrengthReducedU64) : Nat × Nat :=
  if denom.multiplier = 0 then
    (numerator >>> trailingZeros denom.get, numerator &&& (denom.get - 1))
  else
    let numerator128 := numerator
    let multiplied_hi := numerator128 * (denom.multiplier >>> 64)
    let multiplied_lo := (numerator128 * (denom.multiplier % 2 ^ 64)) >>> 64
    let quotient := ((multiplied_hi + multiplied_lo) >>> 64) % 2 ^ 64
    let rem := numerator - quotient * denom.get
    (quotient, rem)

/-- `StrengthReducedU64::divide`; the final `as u64` is the `% 2^64`. -/
def divide (self : StrengthReducedU64) (num : Nat) : Nat :=
  if self.multiplier = 0 then
    num >>> trailingZeros self.get
  else
    let numerator := num
    let multiplied_hi := numerator * (self.multiplier >>> 64)
    let multiplied_lo := (numerator * (self.multiplier % 2 ^ 64)) >>> 64
    ((multiplied_hi + multiplied_lo) >>> 64) % 2 ^ 64

/-- `StrengthReducedU64::remainder`. -/
def remainder (self : StrengthReducedU64) (num : Nat) : Nat :=
  if self.multiplier = 0 then
    num &&& (self.get - 1)
  else
    let quotient := self.divide num
    num - quotient * self.get

end StrengthReducedU64

/-- `impl Div<StrengthReducedU64> for u64`. -/
instance : HDiv Nat StrengthReducedU64 Nat :=
  ⟨fun n rhs => rhs.divide n⟩

/-- `impl Rem<StrengthReducedU64> for u64`. -/
instance : HMod Nat StrengthReducedU64 Nat :=
  ⟨fun n rhs => rhs.remainder n⟩

/-! ### StrengthReducedU128 (src/lib.rs lines 469-549) -/

structure StrengthReducedU128 where
  multiplier_hi : Nat
  multiplier_lo : Nat
  divisor : Nat

namespace StrengthReducedU128

/-- `StrengthReducedU128::new`; the non-power-of-two branch calls the
spec-modelled `divide_256_max_by_128`; `wrapping_add(1)` is the `% 2^128`. -/
def new (divisor : Nat) : StrengthReducedU128 :=
  if isPowerOfTwo divisor then
    { multiplier_hi := 0, multiplier_lo := 0, divisor := divisor }
  else
    let q := divide_256_max_by_128 divisor
    let multiplier_lo := (q.2 + 1) % 2 ^ 128
    let multiplier_hi := if multiplier_lo = 0 then q.1 + 1 else q.1
    { multiplier_hi := multiplier_hi, multiplier_lo := multiplier_lo
      divisor := divisor }

def get (self : StrengthReducedU128) : Nat := self.divisor

/-- `StrengthReducedU128::divide`. -/
def divide (self : StrengthReducedU128) (num : Nat) : Nat :=
  if self.multiplier_hi = 0 then
    num >>> trailingZeros self.get
  else
    multiply_256_by_128_upperbits self.multiplier_hi self.multiplier_lo num

/-- `StrengthReducedU128::remainder`. -/
def remainder (self : StrengthReducedU128) (num : Nat) : Nat :=
  if self.multiplier_hi = 0 then
    num &&& (self.get - 1)
  else
    let quotient :=
      multiply_256_by_128_upperbits self.multiplier_hi self.multiplier_lo num
    num - quotient * self.get

/-- `StrengthReducedU128::div_rem`. -/
def div_rem (numerator : Nat) (denom : StrengthReducedU128) : Nat × Nat :=
  let quotient := denom.divide numerator
  let rem := numerator - quotient * denom.get
  (quotient, rem)

end StrengthReducedU128

/-- `impl Div<StrengthReducedU128> for u128`. -/
instance : HDiv Nat StrengthReducedU128 Nat :=
  ⟨fun n rhs => rhs.divide n⟩

/-- `impl Rem<StrengthReducedU128> for u128`. -/
instance : HMod Nat StrengthReducedU128 Nat :=
  ⟨fun n rhs => rhs.remainder n⟩

/-! ### Characterizations of the bit-level helpers -/

lemma isPow2Aux_spec : ∀ fuel n, n ≤ fuel → (isPow2Aux fuel n = true ↔ ∃ k, n = 2 ^ k) := by
  intro fuel
  induction fuel with
  | zero =>
    intro n hn
    have hn0 : n = 0 := Nat.le_zero.mp hn
    subst hn0
    simp only [isPow2Aux, Bool.false_eq_true, false_iff]
    rintro ⟨k, hk⟩
    have := Nat.pos_pow_of_pos k (show 0 < 2 by norm_num)
    omega
  | succ fuel ih =>
    intro n hn
    by_cases h1 : n = 1
    · subst h1
      constructor
      · intro _; exact ⟨0, rfl⟩
      · intro _; simp [isPow2Aux]
    · by_cases h2 : n % 2 = 1 ∨ n = 0
      · have hfalse : isPow2Aux (fuel + 1) n = false := by
          simp only [isPow2Aux, if_neg h1, if_pos h2]
        rw [hfalse]
        simp only [Bool.false_eq_true, false_iff]
        rintro ⟨k, rfl⟩
        rcases h2 with h2 | h2
        · rcases k with _ | j
          · exact h1 rfl
          · rw [pow_succ, Nat.mul_mod_left] at h2
            exact absurd h2 (by norm_num)
        · have := Nat.pos_pow_of_pos k (show 0 < 2 by norm_num)
          omega
      · have hstep : isPow2Aux (fuel + 1) n = isPow2Aux fuel (n / 2) := by
          simp only [isPow2Aux, if_neg h1, if_neg h2]
        push_neg at h2
        obtain ⟨heven, hne0⟩ := h2
        have hmod : n % 2 = 0 := by omega
        have hge2 : 2 ≤ n := by omega
        have hhalf : n / 2 ≤ fuel := by omega
        rw [hstep, ih (n / 2) hhalf]
        constructor
        · rintro ⟨k, hk⟩
          refine ⟨k + 1, ?_⟩
          have hsplit : n = 2 * (n / 2) := by omega
          rw [hsplit, hk, pow_succ, Nat.mul_comm]
        · rintro ⟨k, rfl⟩
          rcases k with _ | j
          · exact absurd rfl h1
          · exact ⟨j, by rw [pow_succ, Nat.mul_div_cancel _ (by norm_num)]⟩

lemma isPowerOfTwo_iff (n : Nat) : isPowerOfTwo n = true ↔ ∃ k, n = 2 ^ k :=
  isPow2Aux_spec n n le_rfl

lemma isPowerOfTwo_false_iff (n : Nat) : isPowerOfTwo n = false ↔ ∀ k, n ≠ 2 ^ k := by
  rw [← Bool.not_eq_true, isPowerOfTwo_iff]
  push_neg
  rfl

lemma tzAux_two_pow : ∀ k fuel, 2 ^ k ≤ fuel → tzAux fuel (2 ^ k) = k := by
  intro k
  induction k with
  | zero =>
    intro fuel hf
    rcases fuel with _ | f
    · exact absurd hf (by norm_num)
    · simp [tzAux]
  | succ j ih =>
    intro fuel hf
    have h2 : 2 ≤ 2 ^ (j + 1) := by
      have := Nat.pos_pow_of_pos j (show 0 < 2 by norm_num)
      rw [pow_succ]; omega
    rcases fuel with _ | f
    · omega
    · have hmod : 2 ^ (j + 1) % 2 = 0 := by
        rw [pow_succ, Nat.mul_mod_left]
      have hne : ¬(2 ^ (j + 1) % 2 = 1 ∨ 2 ^ (j + 1) = 0) := by omega
      have hdiv : 2 ^ (j + 1) / 2 = 2 ^ j := by
        rw [pow_succ, Nat.mul_div_cancel _ (by norm_num)]
      simp only [tzAux, if_neg hne, hdiv]
      have hfj : 2 ^ j ≤ f := by
        have := Nat.pos_pow_of_pos j (show 0 < 2 by norm_num)
        rw [pow_succ] at hf; omega
      rw [ih f hfj]

lemma trailingZeros_two_pow (k : Nat) : trailingZeros (2 ^ k) = k :=
  tzAux_two_pow k (2 ^ k) le_rfl

lemma sub_div_mul_eq_mod (n b : Nat) : n - n / b * b = n % b := by
  have h := Nat.div_add_mod n b
  rw [Nat.mul_comm] at h
  have h2 : n = n % b + n / b * b := by rw [Nat.add_comm] at h; exact h.symm
  exact Nat.sub_eq_of_eq_add h2

/-! ### The round-up reciprocal multiplier: core arithmetic facts -/

lemma not_dvd_two_pow_of_not_pow2 {d m : Nat} (hd : 0 < d)
    (hnp : ∀ k, d ≠ 2 ^ k) : ¬ d ∣ 2 ^ m := by
  intro hdvd
  rcases (Nat.dvd_prime_pow Nat.prime_two).mp hdvd with ⟨k, _, hk⟩
  exact hnp k hk

/-- The multiplier computed by the constructors for a non-power-of-two
divisor, `(2^(W+W) - 1) / d + 1`, equals `2^(W+W) / d + 1`. -/
lemma magic_multiplier_eq {W d : Nat} (hd : 0 < d) (hnp : ∀ k, d ≠ 2 ^ k) :
    (2 ^ (W + W) - 1) / d + 1 = 2 ^ (W + W) / d + 1 := by
  have hpos : 0 < 2 ^ (W + W) := Nat.pos_pow_of_pos _ (by norm_num)
  have hdvd : ¬ d ∣ 2 ^ (W + W) := not_dvd_two_pow_of_not_pow2 hd hnp
  have hsucc : 2 ^ (W + W) - 1 + 1 = 2 ^ (W + W) := by omega
  have hstep : (2 ^ (W + W) - 1) / d = 2 ^ (W + W) / d := by
    conv_rhs => rw [← hsucc]
    rw [Nat.succ_div_of_not_dvd (by rw [hsucc]; exact hdvd)]
  rw [hstep]

/-- Key decomposition: for non-power-of-two `d`, the round-up multiplier
`m` satisfies `m * d = N + e` with `1 ≤ e ≤ d - 1`, where `N = 2^(W+W)`. -/
lemma magic_mul_decomp {W d : Nat} (hd : 0 < d) (hnp : ∀ k, d ≠ 2 ^ k) :
    ((2 ^ (W + W) - 1) / d + 1) * d =
      2 ^ (W + W) + (d - 2 ^ (W + W) % d) ∧
      1 ≤ d - 2 ^ (W + W) % d ∧ d - 2 ^ (W + W) % d ≤ d - 1 := by
  have hpos : 0 < 2 ^ (W + W) := Nat.pos_pow_of_pos _ (by norm_num)
  have hdvd : ¬ d ∣ 2 ^ (W + W) := not_dvd_two_pow_of_not_pow2 hd hnp
  have hmodlt : 2 ^ (W + W) % d < d := Nat.mod_lt _ hd
  have hmodne : 2 ^ (W + W) % d ≠ 0 := fun h => hdvd (Nat.dvd_of_mod_eq_zero h)
  have hdm := Nat.div_add_mod (2 ^ (W + W)) d
  have hmul : 2 ^ (W + W) / d * d = 2 ^ (W + W) - 2 ^ (W + W) % d := by
    rw [Nat.mul_comm]; omega
  refine ⟨?_, by omega, by omega⟩
  rw [magic_multiplier_eq hd hnp, Nat.add_mul, Nat.one_mul, hmul]
  omega

/-- The error term of the multiply-high is too small to matter:
`n * e < 2^(W+W)` for `n < 2^W` and `e ≤ d - 1 < 2^W`. -/
lemma magic_error_small {W d n : Nat} (hdlt : d < 2 ^ W) (hn : n < 2 ^ W) :
    n * (d - 2 ^ (W + W) % d) < 2 ^ (W + W) := by
  have h1 : n * (d - 2 ^ (W + W) % d) ≤ n * d := Nat.mul_le_mul_left n (by omega)
  have h2 : n * d < 2 ^ W * 2 ^ W := by
    rcases Nat.eq_zero_or_pos d with hd0 | hd0
    · subst hd0
      simp only [Nat.mul_zero]
      exact Nat.mul_pos (Nat.pos_pow_of_pos _ (by norm_num))
        (Nat.pos_pow_of_pos _ (by norm_num))
    · calc n * d ≤ (2 ^ W - 1) * d := Nat.mul_le_mul_right d (by omega)
        _ < 2 ^ W * d := (Nat.mul_lt_mul_right hd0).mpr (by
            have : 0 < 2 ^ W := Nat.pos_pow_of_pos _ (by norm_num)
            omega)
        _ ≤ 2 ^ W * 2 ^ W := Nat.mul_le_mul_left _ (by omega)
  calc n * (d - 2 ^ (W + W) % d) ≤ n * d := h1
    _ < 2 ^ W * 2 ^ W := h2
    _ = 2 ^ (W + W) := (pow_add 2 W W).symm

/-- Correctness of the multiply-high division: for a non-power-of-two
divisor `d < 2^W` and numerator `n < 2^W`,
`n * ((2^(W+W) - 1)/d + 1) / 2^(W+W) = n / d`. -/
lemma magic_div_core {W d n : Nat} (hd : 0 < d) (hnp : ∀ k, d ≠ 2 ^ k)
    (hdlt : d < 2 ^ W) (hn : n < 2 ^ W) :
    n * ((2 ^ (W + W) - 1) / d + 1) / 2 ^ (W + W) = n / d := by
  set N := 2 ^ (W + W) with hN
  set m := (N - 1) / d + 1 with hm
  set e := d - N % d with he
  obtain ⟨hmd, he1, he2⟩ := magic_mul_decomp (W := W) hd hnp
  rw [← hN, ← hm, ← he] at hmd
  have herr : n * e < N := magic_error_small (W := W) hdlt hn
  have hNpos : 0 < N := Nat.pos_pow_of_pos _ (by norm_num)
  set q := n / d with hq
  set r := n % d with hr
  have hqr : d * q + r = n := Nat.div_add_mod n d
  have hrlt : r < d := Nat.mod_lt _ hd
  -- the product times d, exactly
  have hkey : n * m * d = n * N + n * e := by
    rw [Nat.mul_assoc, hmd, Nat.mul_add]
  -- lower bound: q * N ≤ n * m
  have hlow : q * N ≤ n * m := by
    have hqd : q * d ≤ n := by
      rw [hq]; exact Nat.div_mul_le_self n d
    have h1 : q * N * d = q * d * N := by ring
    have h2 : q * d * N ≤ n * N := Nat.mul_le_mul_right N hqd
    have h3 : q * N * d ≤ n * m * d := by
      rw [h1, hkey]
      exact Nat.le_add_right_of_le h2
    exact Nat.le_of_mul_le_mul_right h3 hd
  -- upper bound: n * m < (q + 1) * N
  have hhigh : n * m < (q + 1) * N := by
    have h1 : n * N = q * d * N + r * N := by
      calc n * N = (d * q + r) * N := by rw [hqr]
        _ = q * d * N + r * N := by ring
    have h2 : r * N + n * e < d * N := by
      have h3 : r * N + n * e < r * N + N := by omega
      have h4 : r * N + N = (r + 1) * N := by ring
      have h5 : (r + 1) * N ≤ d * N := Nat.mul_le_mul_right N (by omega)
      omega
    have h6 : n * m * d < (q + 1) * N * d := by
      have h7 : (q + 1) * N * d = q * d * N + d * N := by ring
      rw [hkey, h1, h7]
      omega
    exact Nat.lt_of_mul_lt_mul_right h6
  exact Nat.div_eq_of_lt_le hlow hhigh

/-- Correctness of the middle-bits remainder trick: for a non-power-of-two
divisor `d < 2^W` and numerator `n < 2^W`, with `m` the round-up multiplier,
`(m * n mod 2^(W+W)) * d / 2^(W+W) = n % d`. -/
lemma magic_rem_core {W d n : Nat} (hd : 0 < d) (hnp : ∀ k, d ≠ 2 ^ k)
    (hdlt : d < 2 ^ W) (hn : n < 2 ^ W) :
    ((2 ^ (W + W) - 1) / d + 1) * n % 2 ^ (W + W) * d / 2 ^ (W + W) = n % d := by
  set N := 2 ^ (W + W) with hN
  set m := (N - 1) / d + 1 with hm
  set e := d - N % d with he
  obtain ⟨hmd, he1, he2⟩ := magic_mul_decomp (W := W) hd hnp
  rw [← hN, ← hm, ← he] at hmd
  have herr : n * e < N := magic_error_small (W := W) hdlt hn
  have hNpos : 0 < N := Nat.pos_pow_of_pos _ (by norm_num)
  set q := n / d with hq
  set r := n % d with hr
  have hqr : d * q + r = n := Nat.div_add_mod n d
  have hrlt : r < d := Nat.mod_lt _ hd
  have hdiv : n * m / N = q := magic_div_core hd hnp hdlt hn
  have hcomm : m * n = n * m := Nat.mul_comm m n
  rw [hcomm]
  set f := n * m % N with hf
  have hfq : N * q + f = n * m := by
    have := Nat.div_add_mod (n * m) N
    rw [hdiv] at this
    exact this
  have hkey : n * m * d = n * N + n * e := by
    rw [Nat.mul_assoc, hmd, Nat.mul_add]
  -- f * d = r * N + n * e
  have hfd : f * d = r * N + n * e := by
    have h1 : f * d + N * q * d = n * m * d := by
      rw [← hfq]; ring
    have h2 : n * N = q * d * N + r * N := by
      calc n * N = (d * q + r) * N := by rw [hqr]
        _ = q * d * N + r * N := by ring
    have h3 : N * q * d = q * d * N := by ring
    omega
  rw [hfd]
  have hsplit : (r * N + n * e) / N = r + n * e / N := by
    have : r * N + n * e = N * r + n * e := by ring
    rw [this, Nat.mul_add_div hNpos]
  rw [hsplit, Nat.div_eq_of_lt herr]
  omega

/-- The split multiply-high used by the narrow engines equals the upper
half of the full double-width product. -/
lemma mulhigh_split (w n m : Nat) :
    (n * (m >>> w) + ((n * (m % 2 ^ w)) >>> w)) >>> w = n * m / 2 ^ (w + w) := by
  rw [Nat.shiftRight_eq_div_pow, Nat.shiftRight_eq_div_pow, Nat.shiftRight_eq_div_pow]
  have hw : 0 < 2 ^ w := Nat.pos_pow_of_pos _ (by norm_num)
  have hdecomp : n * m = 2 ^ w * (n * (m / 2 ^ w)) + n * (m % 2 ^ w) := by
    conv_lhs => rw [← Nat.div_add_mod m (2 ^ w)]
    ring
  rw [hdecomp, pow_add, ← Nat.div_div_eq_div_mul, Nat.mul_add_div hw]

/-! ### Per-width engine equations -/

lemma u8_new_pow2 {d : Nat} (hp : isPowerOfTwo d = true) :
    StrengthReducedU8.new d = ⟨0, d⟩ := by
  simp [StrengthReducedU8.new, hp]

lemma u8_new_npow2 {d : Nat} (hp : isPowerOfTwo d = false) :
    StrengthReducedU8.new d = ⟨(2 ^ 16 - 1) / d + 1, d⟩ := by
  simp [StrengthReducedU8.new, hp]

lemma u8_divide_zero_mult (d n : Nat) :
    StrengthReducedU8.divide ⟨0, d⟩ n = (n >>> trailingZeros d) % 2 ^ 8 := by
  simp [StrengthReducedU8.divide, StrengthReducedU8.get]

lemma u8_divide_succ_mult (M d n : Nat) :
    StrengthReducedU8.divide ⟨M + 1, d⟩ n =
      ((n * ((M + 1) >>> 8) + ((n * ((M + 1) % 2 ^ 8)) >>> 8)) >>> 8) % 2 ^ 8 := by
  simp [StrengthReducedU8.divide]

lemma u8_divide_eq {d n : Nat} (hd : 0 < d) (hdlt : d < 2 ^ 8) (hn : n < 2 ^ 8) :
    (StrengthReducedU8.new d).divide n = n / d := by
  rcases hcase : isPowerOfTwo d with hfalse | htrue
  · have hnp : ∀ k, d ≠ 2 ^ k := (isPowerOfTwo_false_iff d).mp hcase
    rw [u8_new_npow2 hcase, u8_divide_succ_mult]
    have h16 : (2 : Nat) ^ 16 = 2 ^ (8 + 8) := by norm_num
    rw [h16, mulhigh_split 8 n ((2 ^ (8 + 8) - 1) / d + 1),
      magic_div_core hd hnp hdlt hn]
    exact Nat.mod_eq_of_lt (lt_of_le_of_lt (Nat.div_le_self n d) hn)
  · obtain ⟨k, rfl⟩ := (isPowerOfTwo_iff d).mp hcase
    rw [u8_new_pow2 hcase, u8_divide_zero_mult, trailingZeros_two_pow,
      Nat.shiftRight_eq_div_pow]
    exact Nat.mod_eq_of_lt (lt_of_le_of_lt (Nat.div_le_self n _) hn)

lemma u8_remainder_zero_mult (d n : Nat) :
    StrengthReducedU8.remainder ⟨0, d⟩ n = n &&& (d - 1) := by
  simp [StrengthReducedU8.remainder, StrengthReducedU8.get]

lemma u8_remainder_succ_mult (M d n : Nat) :
    StrengthReducedU8.remainder ⟨M + 1, d⟩ n =
      (((((M + 1) * n) % 2 ^ 16) * d) >>> 16) % 2 ^ 8 := by
  simp [StrengthReducedU8.remainder, StrengthReducedU8.get]

lemma u8_remainder_eq {d n : Nat} (hd : 0 < d) (hdlt : d < 2 ^ 8) (hn : n < 2 ^ 8) :
    (StrengthReducedU8.new d).remainder n = n % d := by
  rcases hcase : isPowerOfTwo d with hfalse | htrue
  · have hnp : ∀ k, d ≠ 2 ^ k := (isPowerOfTwo_false_iff d).mp hcase
    rw [u8_new_npow2 hcase, u8_remainder_succ_mult]
    have h16 : (2 : Nat) ^ 16 = 2 ^ (8 + 8) := by norm_num
    rw [h16, Nat.shiftRight_eq_div_pow,
      magic_rem_core hd hnp hdlt hn]
    exact Nat.mod_eq_of_lt (lt_trans (Nat.mod_lt n hd) hdlt)
  · obtain ⟨k, rfl⟩ := (isPowerOfTwo_iff d).mp hcase
    rw [u8_new_pow2 hcase, u8_remainder_zero_mult,
      Nat.and_pow_two_sub_one_eq_mod]

lemma u16_new_pow2 {d : Nat} (hp : isPowerOfTwo d = true) :
    StrengthReducedU16.new d = ⟨0, d⟩ := by
  simp [StrengthReducedU16.new, hp]

lemma u16_new_npow2 {d : Nat} (hp : isPowerOfTwo d = false) :
    StrengthReducedU16.new d = ⟨(2 ^ 32 - 1) / d + 1, d⟩ := by
  simp [StrengthReducedU16.new, hp]

lemma u16_divide_zero_mult (d n : Nat) :
    StrengthReducedU16.divide ⟨0, d⟩ n = n >>> trailingZeros d := by
  simp [StrengthReducedU16.divide, StrengthReducedU16.get]

lemma u16_divide_succ_mult (M d n : Nat) :
    StrengthReducedU16.divide ⟨M + 1, d⟩ n =
      ((n * ((M + 1) >>> 16) + ((n * ((M + 1) % 2 ^ 16)) >>> 16)) >>> 16) % 2 ^ 16 := by
  simp [StrengthReducedU16.divide]

lemma u16_divide_eq {d n : Nat} (hd : 0 < d) (hdlt : d < 2 ^ 16) (hn : n < 2 ^ 16) :
    (StrengthReducedU16.new d).divide n = n / d := by
  rcases hcase : isPowerOfTwo d with hfalse | htrue
  · have hnp : ∀ k, d ≠ 2 ^ k := (isPowerOfTwo_false_iff d).mp hcase
    rw [u16_new_npow2 hcase, u16_divide_succ_mult]
    have h32 : (2 : Nat) ^ 32 = 2 ^ (16 + 16) := by norm_num
    rw [h32, mulhigh_split 16 n ((2 ^ (16 + 16) - 1) / d + 1),
      magic_div_core hd hnp hdlt hn]
    exact Nat.mod_eq_of_lt (lt_of_le_of_lt (Nat.div_le_self n d) hn)
  · obtain ⟨k, rfl⟩ := (isPowerOfTwo_iff d).mp hcase
    rw [u16_new_pow2 hcase, u16_divide_zero_mult, trailingZeros_two_pow,
      Nat.shiftRight_eq_div_pow]

lemma u16_remainder_zero_mult (d n : Nat) :
    StrengthReducedU16.remainder ⟨0, d⟩ n = n &&& (d - 1) := by
  simp [StrengthReducedU16.remainder, StrengthReducedU16.get]

lemma u16_remainder_succ_mult (M d n : Nat) :
    StrengthReducedU16.remainder ⟨M + 1, d⟩ n =
      n - StrengthReducedU16.divide ⟨M + 1, d⟩ n * d := by
  simp [StrengthReducedU16.remainder, StrengthReducedU16.get]

lemma u16_remainder_eq {d n : Nat} (hd : 0 < d) (hdlt : d < 2 ^ 16) (hn : n < 2 ^ 16) :
    (StrengthReducedU16.new d).remainder n = n % d := by
  rcases hcase : isPowerOfTwo d with hfalse | htrue
  · have hdiv := u16_divide_eq hd hdlt hn
    rw [u16_new_npow2 hcase] at hdiv ⊢
    rw [u16_remainder_succ_mult, hdiv, sub_div_mul_eq_mod]
  · obtain ⟨k, rfl⟩ := (isPowerOfTwo_iff d).mp hcase
    rw [u16_new_pow2 hcase, u16_remainder_zero_mult,
      Nat.and_pow_two_sub_one_eq_mod]

lemma u32_new_pow2 {d : Nat} (hp : isPowerOfTwo d = true) :
    StrengthReducedU32.new d = ⟨0, d⟩ := by
  simp [StrengthReducedU32.new, hp]

lemma u32_new_npow2 {d : Nat} (hp : isPowerOfTwo d = false) :
    StrengthReducedU32.new d = ⟨(2 ^ 64 - 1) / d + 1, d⟩ := by
  simp [StrengthReducedU32.new, hp]

lemma u32_divide_zero_mult (d n : Nat) :
    StrengthReducedU32.divide ⟨0, d⟩ n = n >>> trailingZeros d := by
  simp [StrengthReducedU32.divide, StrengthReducedU32.get]

lemma u32_divide_succ_mult (M d n : Nat) :
    StrengthReducedU32.divide ⟨M + 1, d⟩ n =
      ((n * ((M + 1) >>> 32) + ((n * ((M + 1) % 2 ^ 32)) >>> 32)) >>> 32) % 2 ^ 32 := by
  simp [StrengthReducedU32.divide]

lemma u32_divide_eq {d n : Nat} (hd : 0 < d) (hdlt : d < 2 ^ 32) (hn : n < 2 ^ 32) :
    (StrengthReducedU32.new d).divide n = n / d := by
  rcases hcase : isPowerOfTwo d with hfalse | htrue
  · have hnp : ∀ k, d ≠ 2 ^ k := (isPowerOfTwo_false_iff d).mp hcase
    rw [u32_new_npow2 hcase, u32_divide_succ_mult]
    have h64 : (2 : Nat) ^ 64 = 2 ^ (32 + 32) := by norm_num
    rw [h64, mulhigh_split 32 n ((2 ^ (32 + 32) - 1) / d + 1),
      magic_div_core hd hnp hdlt hn]
    exact Nat.mod_eq_of_lt (lt_of_le_of_lt (Nat.div_le_self n d) hn)
  · obtain ⟨k, rfl⟩ := (isPowerOfTwo_iff d).mp hcase
    rw [u32_new_pow2 hcase, u32_divide_zero_mult, trailingZeros_two_pow,
      Nat.shiftRight_eq_div_pow]

lemma u32_remainder_zero_mult (d n : Nat) :
    StrengthReducedU32.remainder ⟨0, d⟩ n = n &&& (d - 1) := by
  simp [StrengthReducedU32.remainder, StrengthReducedU32.get]

lemma u32_remainder_succ_mult (M d n : Nat) :
    StrengthReducedU32.remainder ⟨M + 1, d⟩ n =
      (((((M + 1) * n) % 2 ^ 64) * d) >>> 64) % 2 ^ 32 := by
  simp [StrengthReducedU32.remainder, StrengthReducedU32.get]

lemma u32_remainder_eq {d n : Nat} (hd : 0 < d) (hdlt : d < 2 ^ 32) (hn : n < 2 ^ 32) :
    (StrengthReducedU32.new d).remainder n = n % d := by
  rcases hcase : isPowerOfTwo d with hfalse | htrue
  · have hnp : ∀ k, d ≠ 2 ^ k := (isPowerOfTwo_false_iff d).mp hcase
    rw [u32_new_npow2 hcase, u32_remainder_succ_mult]
    have h64 : (2 : Nat) ^ 64 = 2 ^ (32 + 32) := by norm_num
    rw [h64, Nat.shiftRight_eq_div_pow,
      magic_rem_core hd hnp hdlt hn]
    exact Nat.mod_eq_of_lt (lt_trans (Nat.mod_lt n hd) hdlt)
  · obtain ⟨k, rfl⟩ := (isPowerOfTwo_iff d).mp hcase
    rw [u32_new_pow2 hcase, u32_remainder_zero_mult,
      Nat.and_pow_two_sub_one_eq_mod]

lemma u64_new_pow2 {d : Nat} (hp : isPowerOfTwo d = true) :
    StrengthReducedU64.new d = ⟨0, d⟩ := by
  simp [StrengthReducedU64.new, hp]

lemma u64_new_npow2 {d : Nat} (hp : isPowerOfTwo d = false) :
    StrengthReducedU64.new d = ⟨(2 ^ 128 - 1) / d + 1, d⟩ := by
  simp [StrengthReducedU64.new, hp, divide_128_max_by_64]

lemma u64_divide_zero_mult (d n : Nat) :
    StrengthReducedU64.divide ⟨0, d⟩ n = n >>> trailingZeros d := by
  simp [StrengthReducedU64.divide, StrengthReducedU64.get]

lemma u64_divide_succ_mult (M d n : Nat) :
    StrengthReducedU64.divide ⟨M + 1, d⟩ n =
      ((n * ((M + 1) >>> 64) + ((n * ((M + 1) % 2 ^ 64)) >>> 64)) >>> 64) % 2 ^ 64 := by
  simp [StrengthReducedU64.divide]

lemma u64_divide_eq {d n : Nat} (hd : 0 < d) (hdlt : d < 2 ^ 64) (hn : n < 2 ^ 64) :
    (StrengthReducedU64.new d).divide n = n / d := by
  rcases hcase : isPowerOfTwo d with hfalse | htrue
  · have hnp : ∀ k, d ≠ 2 ^ k := (isPowerOfTwo_false_iff d).mp hcase
    rw [u64_new_npow2 hcase, u64_divide_succ_mult]
    have h128 : (2 : Nat) ^ 128 = 2 ^ (64 + 64) := by norm_num
    rw [h128, mulhigh_split 64 n ((2 ^ (64 + 64) - 1) / d + 1),
      magic_div_core hd hnp hdlt hn]
    exact Nat.mod_eq_of_lt (lt_of_le_of_lt (Nat.div_le_self n d) hn)
  · obtain ⟨k, rfl⟩ := (isPowerOfTwo_iff d).mp hcase
    rw [u64_new_pow2 hcase, u64_divide_zero_mult, trailingZeros_two_pow,
      Nat.shiftRight_eq_div_pow]

lemma u64_remainder_zero_mult (d n : Nat) :
    StrengthReducedU64.remainder ⟨0, d⟩ n = n &&& (d - 1) := by
  simp [StrengthReducedU64.remainder, StrengthReducedU64.get]

lemma u64_remainder_succ_mult (M d n : Nat) :
    StrengthReducedU64.remainder ⟨M + 1, d⟩ n =
      n - StrengthReducedU64.divide ⟨M + 1, d⟩ n * d := by
  simp [StrengthReducedU64.remainder, StrengthReducedU64.get]

lemma u64_remainder_eq {d n : Nat} (hd : 0 < d) (hdlt : d < 2 ^ 64) (hn : n < 2 ^ 64) :
    (StrengthReducedU64.new d).remainder n = n % d := by
  rcases hcase : isPowerOfTwo d with hfalse | htrue
  · have hdiv := u64_divide_eq hd hdlt hn
    rw [u64_new_npow2 hcase] at hdiv ⊢
    rw [u64_remainder_succ_mult, hdiv, sub_div_mul_eq_mod]
  · obtain ⟨k, rfl⟩ := (isPowerOfTwo_iff d).mp hcase
    rw [u64_new_pow2 hcase, u64_remainder_zero_mult,
      Nat.and_pow_two_sub_one_eq_mod]

lemma isPowerOfTwo_two_pow (k : Nat) : isPowerOfTwo (2 ^ k) = true :=
  (isPowerOfTwo_iff _).mpr ⟨k, rfl⟩

lemma u128_new_pow2 {d : Nat} (hp : isPowerOfTwo d = true) :
    StrengthReducedU128.new d = ⟨0, 0, d⟩ := by
  simp [StrengthReducedU128.new, hp]

lemma u128_new_npow2 {d : Nat} (hp : isPowerOfTwo d = false) :
    StrengthReducedU128.new d =
      ⟨if ((((2 ^ 256 - 1) / d) % 2 ^ 128 + 1) % 2 ^ 128 = 0)
          then ((2 ^ 256 - 1) / d) >>> 128 + 1
          else ((2 ^ 256 - 1) / d) >>> 128,
        (((2 ^ 256 - 1) / d) % 2 ^ 128 + 1) % 2 ^ 128, d⟩ := by
  simp [StrengthReducedU128.new, hp, divide_256_max_by_128]

/-- For a non-power-of-two divisor below `2^128`, the high half of the
precomputed multiplier is nonzero (the modelled wide quotient is at least
`2^128 + 1`). -/
lemma u128_mh_pos {d : Nat} (hd : 0 < d) (hdlt : d < 2 ^ 128)
    (hp : isPowerOfTwo d = false) :
    0 < (StrengthReducedU128.new d).multiplier_hi := by
  rw [u128_new_npow2 hp]
  have hqge : 2 ^ 128 + 1 ≤ (2 ^ 256 - 1) / d := by
    have hconst : (2 ^ 256 - 1) / (2 ^ 128 - 1) = 2 ^ 128 + 1 := by norm_num
    calc 2 ^ 128 + 1 = (2 ^ 256 - 1) / (2 ^ 128 - 1) := hconst.symm
      _ ≤ (2 ^ 256 - 1) / d := Nat.div_le_div_left (by omega) hd
  have hqh : 1 ≤ ((2 ^ 256 - 1) / d) >>> 128 := by
    rw [Nat.shiftRight_eq_div_pow]
    have h1 : (2 ^ 128 + 1) / 2 ^ 128 ≤ (2 ^ 256 - 1) / d / 2 ^ 128 :=
      Nat.div_le_div_right hqge
    have hpos : 0 < (2 : Nat) ^ 128 := Nat.pos_pow_of_pos _ (by norm_num)
    have h2 : ((2 : Nat) ^ 128 + 1) / 2 ^ 128 = 1 := by
      apply Nat.div_eq_of_lt_le <;> omega
    omega
  dsimp only
  split <;> omega

/-! ### div_rem versus divide/remainder, per width -/

lemma u8_div_rem_def (e : StrengthReducedU8) (n : Nat) :
    StrengthReducedU8.div_rem n e = (e.divide n, e.remainder n) := rfl

lemma u16_div_rem_def (e : StrengthReducedU16) (n : Nat) :
    StrengthReducedU16.div_rem n e = (e.divide n, n - e.divide n * e.get) := rfl

lemma u16_div_rem_consistent (d n : Nat) :
    StrengthReducedU16.div_rem n (StrengthReducedU16.new d) =
      ((StrengthReducedU16.new d).divide n, (StrengthReducedU16.new d).remainder n) := by
  rcases hcase : isPowerOfTwo d with hf | ht
  · rw [u16_new_npow2 hcase, u16_div_rem_def, u16_remainder_succ_mult]
    rfl
  · obtain ⟨k, rfl⟩ := (isPowerOfTwo_iff d).mp hcase
    rw [u16_new_pow2 hcase, u16_div_rem_def, u16_remainder_zero_mult,
      u16_divide_zero_mult]
    show (_, n - n >>> trailingZeros (2 ^ k) * StrengthReducedU16.get ⟨0, 2 ^ k⟩) = _
    rw [trailingZeros_two_pow, Nat.shiftRight_eq_div_pow,
      Nat.and_pow_two_sub_one_eq_mod]
    show (n / 2 ^ k, n - n / 2 ^ k * 2 ^ k) = _
    rw [sub_div_mul_eq_mod]

lemma u32_div_rem_zero_mult (d n : Nat) :
    StrengthReducedU32.div_rem n ⟨0, d⟩ =
      (n >>> trailingZeros d, n &&& (d - 1)) := by
  simp [StrengthReducedU32.div_rem, StrengthReducedU32.get]

lemma u32_div_rem_succ_mult (M d n : Nat) :
    StrengthReducedU32.div_rem n ⟨M + 1, d⟩ =
      (StrengthReducedU32.divide ⟨M + 1, d⟩ n,
        n - StrengthReducedU32.divide ⟨M + 1, d⟩ n * d) := by
  simp [StrengthReducedU32.div_rem, StrengthReducedU32.divide, StrengthReducedU32.get]

lemma u32_div_rem_consistent (d n : Nat) (hd : 0 < d) (hdlt : d < 2 ^ 32)
    (hn : n < 2 ^ 32) :
    StrengthReducedU32.div_rem n (StrengthReducedU32.new d) =
      ((StrengthReducedU32.new d).divide n, (StrengthReducedU32.new d).remainder n) := by
  rcases hcase : isPowerOfTwo d with hf | ht
  · have hdiv := u32_divide_eq hd hdlt hn
    have hrem := u32_remainder_eq hd hdlt hn
    rw [u32_new_npow2 hcase] at hdiv hrem ⊢
    rw [u32_div_rem_succ_mult, hdiv, hrem, sub_div_mul_eq_mod]
  · obtain ⟨k, rfl⟩ := (isPowerOfTwo_iff d).mp hcase
    rw [u32_new_pow2 hcase, u32_div_rem_zero_mult, u32_divide_zero_mult,
      u32_remainder_zero_mult]

lemma u64_div_rem_zero_mult (d n : Nat) :
    StrengthReducedU64.div_rem n ⟨0, d⟩ =
      (n >>> trailingZeros d, n &&& (d - 1)) := by
  simp [StrengthReducedU64.div_rem, StrengthReducedU64.get]

lemma u64_div_rem_succ_mult (M d n : Nat) :
    StrengthReducedU64.div_rem n ⟨M + 1, d⟩ =
      (StrengthReducedU64.divide ⟨M + 1, d⟩ n,
        n - StrengthReducedU64.divide ⟨M + 1, d⟩ n * d) := by
  simp [StrengthReducedU64.div_rem, StrengthReducedU64.divide, StrengthReducedU64.get]

lemma u64_div_rem_consistent (d n : Nat) :
    StrengthReducedU64.div_rem n (StrengthReducedU64.new d) =
      ((StrengthReducedU64.new d).divide n, (StrengthReducedU64.new d).remainder n) := by
  rcases hcase : isPowerOfTwo d with hf | ht
  · rw [u64_new_npow2 hcase, u64_div_rem_succ_mult, u64_remainder_succ_mult]
  · obtain ⟨k, rfl⟩ := (isPowerOfTwo_iff d).mp hcase
    rw [u64_new_pow2 hcase, u64_div_rem_zero_mult, u64_divide_zero_mult,
      u64_remainder_zero_mult]

lemma u128_div_rem_def (e : StrengthReducedU128) (n : Nat) :
    StrengthReducedU128.div_rem n e = (e.divide n, n - e.divide n * e.get) := rfl

lemma u128_divide_zero_mh (ml d n : Nat) :
    StrengthReducedU128.divide ⟨0, ml, d⟩ n = n >>> trailingZeros d := by
  simp [StrengthReducedU128.divide, StrengthReducedU128.get]

lemma u128_remainder_zero_mh (ml d n : Nat) :
    StrengthReducedU128.remainder ⟨0, ml, d⟩ n = n &&& (d - 1) := by
  simp [StrengthReducedU128.remainder, StrengthReducedU128.get]

lemma u128_divide_pos_mh {mh : Nat} (ml d n : Nat) (h : mh ≠ 0) :
    StrengthReducedU128.divide ⟨mh, ml, d⟩ n =
      multiply_256_by_128_upperbits mh ml n := by
  simp [StrengthReducedU128.divide, h]

lemma u128_remainder_pos_mh {mh : Nat} (ml d n : Nat) (h : mh ≠ 0) :
    StrengthReducedU128.remainder ⟨mh, ml, d⟩ n =
      n - multiply_256_by_128_upperbits mh ml n * d := by
  simp [StrengthReducedU128.remainder, StrengthReducedU128.get, h]

lemma u128_div_rem_consistent (d n : Nat) (hd : 0 < d) (hdlt : d < 2 ^ 128) :
    StrengthReducedU128.div_rem n (StrengthReducedU128.new d) =
      ((StrengthReducedU128.new d).divide n, (StrengthReducedU128.new d).remainder n) := by
  rcases hcase : isPowerOfTwo d with hf | ht
  · have hmh := u128_mh_pos hd hdlt hcase
    rcases he : StrengthReducedU128.new d with ⟨mh, ml, dv⟩
    rw [he] at hmh
    have hmh' : mh ≠ 0 := by
      simp only at hmh
      omega
    rw [u128_div_rem_def, u128_divide_pos_mh ml dv n hmh',
      u128_remainder_pos_mh ml dv n hmh']
    rfl
  · obtain ⟨k, rfl⟩ := (isPowerOfTwo_iff d).mp hcase
    rw [u128_new_pow2 hcase, u128_div_rem_def, u128_divide_zero_mh,
      u128_remainder_zero_mh]
    show (_, n - n >>> trailingZeros (2 ^ k) * StrengthReducedU128.get ⟨0, 0, 2 ^ k⟩) = _
    rw [trailingZeros_two_pow, Nat.shiftRight_eq_div_pow,
      Nat.and_pow_two_sub_one_eq_mod]
    show (n / 2 ^ k, n - n / 2 ^ k * 2 ^ k) = _
    rw [sub_div_mul_eq_mod]

/-! ### Claim theorems -/

/-- C1: the claim that for every supported width `divide`/`remainder` agree
with native division fails on the code.  For width 128, with divisor
0xC187F639BEF7D9FE6EB9F1186E6506E1 and numerator 2^128 - 2, the engine's
`divide` returns 0 while the native truncated quotient is 1. -/
theorem C1_exactness_failing_input :
    (StrengthReducedU128.new 0xC187F639BEF7D9FE6EB9F1186E6506E1).divide
        (2 ^ 128 - 2) = 0 ∧
      (2 ^ 128 - 2) / (0xC187F639BEF7D9FE6EB9F1186E6506E1 : Nat) = 1 :=
  ⟨by decide, by decide⟩

/-- C2: the claim that `multiply_256_by_128_upperbits` returns the upper 128
bits of the 384-bit product fails on the code: at a_hi = 2^64, a_lo = 0,
b = 2^64 the function returns 0, but the upper 128 bits of
(2^64 * 2^128 + 0) * 2^64 = 2^256 are 1. -/
theorem C2_upperbits_failing_input :
    multiply_256_by_128_upperbits (2 ^ 64) 0 (2 ^ 64) = 0 ∧
      ((2 ^ 64 * 2 ^ 128 + 0) * 2 ^ 64) / 2 ^ 256 = 1 :=
  ⟨by decide, by decide⟩

/-- C3: the canonical hard 128-bit regression case fails on the code: with
numerator 2^128 - 2 and divisor 0xC187F639BEF7D9FE6EB9F1186E6506E1, the
engine returns quotient 0 and remainder 2^128 - 2 (the full numerator),
while native division gives quotient 1 and remainder numerator - divisor. -/
theorem C3_hard_case_failing_input :
    (StrengthReducedU128.new 0xC187F639BEF7D9FE6EB9F1186E6506E1).divide
        (2 ^ 128 - 2) = 0 ∧
      (StrengthReducedU128.new 0xC187F639BEF7D9FE6EB9F1186E6506E1).remainder
        (2 ^ 128 - 2) = 2 ^ 128 - 2 ∧
      StrengthReducedU128.div_rem (2 ^ 128 - 2)
        (StrengthReducedU128.new 0xC187F639BEF7D9FE6EB9F1186E6506E1) =
        (0, 2 ^ 128 - 2) ∧
      (2 ^ 128 - 2) / (0xC187F639BEF7D9FE6EB9F1186E6506E1 : Nat) = 1 ∧
      (2 ^ 128 - 2) % (0xC187F639BEF7D9FE6EB9F1186E6506E1 : Nat) =
        (2 ^ 128 - 2) - 0xC187F639BEF7D9FE6EB9F1186E6506E1 :=
  ⟨by decide, by decide, by decide, by decide, by decide⟩

/-- C4: the claim that the subtraction `numerator - quotient * divisor` in
`remainder`/`div_rem` never underflows fails on the code: for the 128-bit
engine with divisor 3 and numerator 0x795B929E9A9A80FDEA7B5BF55EB561A4 the
computed quotient satisfies quotient * 3 > numerator, so the Rust u128
subtraction underflows (the truncated model returns 0). -/
theorem C4_remainder_subtraction_underflow :
    (StrengthReducedU128.new 3).divide 0x795B929E9A9A80FDEA7B5BF55EB561A4 * 3 >
        0x795B929E9A9A80FDEA7B5BF55EB561A4 ∧
      (StrengthReducedU128.new 3).remainder 0x795B929E9A9A80FDEA7B5BF55EB561A4 = 0 :=
  ⟨by decide, by decide⟩

/-- C5: for every supported width, for every engine built from a nonzero
divisor, `div_rem` returns exactly the pair `(divide, remainder)`; the
width-32 and width-128 parts additionally assume the divisor and numerator
are representable in the width. -/
theorem C5_div_rem_consistent (d n : Nat) (hd : 0 < d) :
    StrengthReducedU8.div_rem n (StrengthReducedU8.new d) =
        ((StrengthReducedU8.new d).divide n, (StrengthReducedU8.new d).remainder n) ∧
      StrengthReducedU16.div_rem n (StrengthReducedU16.new d) =
        ((StrengthReducedU16.new d).divide n, (StrengthReducedU16.new d).remainder n) ∧
      (d < 2 ^ 32 → n < 2 ^ 32 →
        StrengthReducedU32.div_rem n (StrengthReducedU32.new d) =
          ((StrengthReducedU32.new d).divide n, (StrengthReducedU32.new d).remainder n)) ∧
      StrengthReducedU64.div_rem n (StrengthReducedU64.new d) =
        ((StrengthReducedU64.new d).divide n, (StrengthReducedU64.new d).remainder n) ∧
      (d < 2 ^ 128 →
        StrengthReducedU128.div_rem n (StrengthReducedU128.new d) =
          ((StrengthReducedU128.new d).divide n, (StrengthReducedU128.new d).remainder n)) :=
  ⟨u8_div_rem_def _ n, u16_div_rem_consistent d n,
    fun h1 h2 => u32_div_rem_consistent d n hd h1 h2,
    u64_div_rem_consistent d n,
    fun h1 => u128_div_rem_consistent d n hd h1⟩

/-- C5 witness: the width-32 consistency at divisor 3, numerator 10. -/
theorem C5_div_rem_consistent_witness :
    StrengthReducedU32.div_rem 10 (StrengthReducedU32.new 3) =
      ((StrengthReducedU32.new 3).divide 10, (StrengthReducedU32.new 3).remainder 10) :=
  (C5_div_rem_consistent 3 10 (by decide)).2.2.1 (by decide) (by decide)

/-- C6: the truncating-division contract `q * d + r = n` and `r < d` fails
on the code: for width 128 at the hard regression input the remainder
equals the full numerator 2^128 - 2, which is not below the divisor. -/
theorem C6_reconstruction_failing_input :
    (StrengthReducedU128.new 0xC187F639BEF7D9FE6EB9F1186E6506E1).remainder
        (2 ^ 128 - 2) = 2 ^ 128 - 2 ∧
      ¬ ((StrengthReducedU128.new 0xC187F639BEF7D9FE6EB9F1186E6506E1).remainder
          (2 ^ 128 - 2) < 0xC187F639BEF7D9FE6EB9F1186E6506E1) :=
  ⟨by decide, by decide⟩

/-- C7: for every supported width and every non-power-of-two nonzero
divisor, the stored multiplier is `floor(MAX_2W / d) + 1`; for width 128
the (hi, lo) pair together encodes that value, and the low half is zero
(carry into the high half) exactly when the incremented low half wraps. -/
theorem C7_multiplier_formula (d : Nat) (hd : 0 < d)
    (hnp : isPowerOfTwo d = false) :
    (StrengthReducedU8.new d).multiplier = (2 ^ 16 - 1) / d + 1 ∧
      (StrengthReducedU16.new d).multiplier = (2 ^ 32 - 1) / d + 1 ∧
      (StrengthReducedU32.new d).multiplier = (2 ^ 64 - 1) / d + 1 ∧
      (StrengthReducedU64.new d).multiplier = (2 ^ 128 - 1) / d + 1 ∧
      (StrengthReducedU128.new d).multiplier_hi * 2 ^ 128 +
          (StrengthReducedU128.new d).multiplier_lo = (2 ^ 256 - 1) / d + 1 ∧
      ((StrengthReducedU128.new d).multiplier_lo = 0 ↔
        ((2 ^ 256 - 1) / d) % 2 ^ 128 = 2 ^ 128 - 1) := by
  refine ⟨?_, ?_, ?_, ?_, ?_, ?_⟩
  · rw [u8_new_npow2 hnp]
  · rw [u16_new_npow2 hnp]
  · rw [u32_new_npow2 hnp]
  · rw [u64_new_npow2 hnp]
  · rw [u128_new_npow2 hnp]
    dsimp only
    rw [Nat.shiftRight_eq_div_pow]
    have hq := Nat.div_add_mod ((2 ^ 256 - 1) / d) (2 ^ 128)
    have hql : ((2 ^ 256 - 1) / d) % 2 ^ 128 < 2 ^ 128 :=
      Nat.mod_lt _ (Nat.pos_pow_of_pos _ (by norm_num))
    split <;> omega
  · rw [u128_new_npow2 hnp]
    dsimp only
    have hql : ((2 ^ 256 - 1) / d) % 2 ^ 128 < 2 ^ 128 :=
      Nat.mod_lt _ (Nat.pos_pow_of_pos _ (by norm_num))
    omega

/-- C7 witness: the formula at divisor 7 for width 8 and width 128. -/
theorem C7_multiplier_formula_witness :
    (StrengthReducedU8.new 7).multiplier = (2 ^ 16 - 1) / 7 + 1 ∧
      (StrengthReducedU128.new 7).multiplier_hi * 2 ^ 128 +
        (StrengthReducedU128.new 7).multiplier_lo = (2 ^ 256 - 1) / 7 + 1 :=
  ⟨(C7_multiplier_formula 7 (by decide) (by decide)).1,
    (C7_multiplier_formula 7 (by decide) (by decide)).2.2.2.2.1⟩

/-- C8: for every supported width, a power-of-two divisor `2^k` yields the
sentinel multiplier 0 (both halves for width 128), and `divide`/`remainder`
compute the exact shift/mask results `n / 2^k` and `n % 2^k` for every
representable numerator. -/
theorem C8_pow2_fast_path (k n : Nat) :
    ((StrengthReducedU8.new (2 ^ k)).multiplier = 0 ∧
      (2 ^ k < 2 ^ 8 → n < 2 ^ 8 →
        (StrengthReducedU8.new (2 ^ k)).divide n = n / 2 ^ k ∧
        (StrengthReducedU8.new (2 ^ k)).remainder n = n % 2 ^ k)) ∧
    ((StrengthReducedU16.new (2 ^ k)).multiplier = 0 ∧
      (2 ^ k < 2 ^ 16 → n < 2 ^ 16 →
        (StrengthReducedU16.new (2 ^ k)).divide n = n / 2 ^ k ∧
        (StrengthReducedU16.new (2 ^ k)).remainder n = n % 2 ^ k)) ∧
    ((StrengthReducedU32.new (2 ^ k)).multiplier = 0 ∧
      (2 ^ k < 2 ^ 32 → n < 2 ^ 32 →
        (StrengthReducedU32.new (2 ^ k)).divide n = n / 2 ^ k ∧
        (StrengthReducedU32.new (2 ^ k)).remainder n = n % 2 ^ k)) ∧
    ((StrengthReducedU64.new (2 ^ k)).multiplier = 0 ∧
      (2 ^ k < 2 ^ 64 → n < 2 ^ 64 →
        (StrengthReducedU64.new (2 ^ k)).divide n = n / 2 ^ k ∧
        (StrengthReducedU64.new (2 ^ k)).remainder n = n % 2 ^ k)) ∧
    ((StrengthReducedU128.new (2 ^ k)).multiplier_hi = 0 ∧
      (StrengthReducedU128.new (2 ^ k)).multiplier_lo = 0 ∧
      (2 ^ k < 2 ^ 128 → n < 2 ^ 128 →
        (StrengthReducedU128.new (2 ^ k)).divide n = n / 2 ^ k ∧
        (StrengthReducedU128.new (2 ^ k)).remainder n = n % 2 ^ k)) := by
  have hp := isPowerOfTwo_two_pow k
  have hd : 0 < 2 ^ k := Nat.pos_pow_of_pos _ (by norm_num)
  refine ⟨⟨?_, fun hlt hn => ⟨?_, ?_⟩⟩, ⟨?_, fun hlt hn => ⟨?_, ?_⟩⟩,
    ⟨?_, fun hlt hn => ⟨?_, ?_⟩⟩, ⟨?_, fun hlt hn => ⟨?_, ?_⟩⟩,
    ?_, ?_, fun hlt hn => ⟨?_, ?_⟩⟩
  · rw [u8_new_pow2 hp]
  · exact u8_divide_eq hd hlt hn
  · exact u8_remainder_eq hd hlt hn
  · rw [u16_new_pow2 hp]
  · exact u16_divide_eq hd hlt hn
  · exact u16_remainder_eq hd hlt hn
  · rw [u32_new_pow2 hp]
  · exact u32_divide_eq hd hlt hn
  · exact u32_remainder_eq hd hlt hn
  · rw [u64_new_pow2 hp]
  · exact u64_divide_eq hd hlt hn
  · exact u64_remainder_eq hd hlt hn
  · rw [u128_new_pow2 hp]
  · rw [u128_new_pow2 hp]
  · rw [u128_new_pow2 hp, u128_divide_zero_mh, trailingZeros_two_pow,
      Nat.shiftRight_eq_div_pow]
  · rw [u128_new_pow2 hp, u128_remainder_zero_mh,
      Nat.and_pow_two_sub_one_eq_mod]

/-- C8 witness: divisor 4 = 2^2 at numerator 7 for width 8. -/
theorem C8_pow2_fast_path_witness :
    (StrengthReducedU8.new (2 ^ 2)).divide 7 = 7 / 2 ^ 2 ∧
      (StrengthReducedU8.new (2 ^ 2)).remainder 7 = 7 % 2 ^ 2 :=
  (C8_pow2_fast_path 2 7).1.2 (by decide) (by decide)

/-- C9: the overloaded operators agree with the named methods at every
width: `n / e` is `divide e n` and `n % e` is `remainder e n`. -/
theorem C9_operator_sugar (n : Nat) (e8 : StrengthReducedU8)
    (e16 : StrengthReducedU16) (e32 : StrengthReducedU32)
    (e64 : StrengthReducedU64) (e128 : StrengthReducedU128) :
    n / e8 = e8.divide n ∧ n % e8 = e8.remainder n ∧
      n / e16 = e16.divide n ∧ n % e16 = e16.remainder n ∧
      n / e32 = e32.divide n ∧ n % e32 = e32.remainder n ∧
      n / e64 = e64.divide n ∧ n % e64 = e64.remainder n ∧
      n / e128 = e128.divide n ∧ n % e128 = e128.remainder n :=
  ⟨rfl, rfl, rfl, rfl, rfl, rfl, rfl, rfl, rfl, rfl⟩

/-- C9 witness: the width-8 operator at a concrete engine and numerator. -/
theorem C9_operator_sugar_witness :
    10 / StrengthReducedU8.new 3 = (StrengthReducedU8.new 3).divide 10 :=
  (C9_operator_sugar 10 (StrengthReducedU8.new 3) (StrengthReducedU16.new 3)
    (StrengthReducedU32.new 3) (StrengthReducedU64.new 3)
    (StrengthReducedU128.new 3)).1

/-- C10: for the 128-bit engine over nonzero representable divisors, the
high multiplier half stored by the constructor is zero exactly when the
divisor is a power of two, so the branch discriminant used by
`divide`/`remainder` is sound. -/
theorem C10_multiplier_hi_zero_iff (d : Nat) (hd : 0 < d)
    (hdlt : d < 2 ^ 128) :
    (StrengthReducedU128.new d).multiplier_hi = 0 ↔ isPowerOfTwo d = true := by
  constructor
  · intro h0
    cases hcase : isPowerOfTwo d with
    | true => rfl
    | false =>
      have := u128_mh_pos hd hdlt hcase
      omega
  · intro ht
    rw [u128_new_pow2 ht]

/-- C10 witness: the equivalence at divisor 3 (both sides false). -/
theorem C10_multiplier_hi_zero_iff_witness :
    ((StrengthReducedU128.new 3).multiplier_hi = 0 ↔ isPowerOfTwo 3 = true) :=
  C10_multiplier_hi_zero_iff 3 (by decide) (by decide)
